import Mathlib

/-!
Verification of the arrangement-counting engine of `12-springs` (file
`src/12-springs/src/main.rs`).

The Rust code works on `Vec<char>` records ('.', '#', '?') and `Vec<usize>`
group specs.  We embed records as `List Char`, `usize` values as `Nat`, and
model `usize` subtraction with Rust's overflow check: an expression whose
intermediate subtraction would underflow yields `none` (the panic of a build
with debug assertions).  Fallible computations return `Option`.
-/

/-! ### The counting engine, translated from `MaintenanceRecord::possible_failures` -/

/-- Base case of `possible_failures`: `if springs.is_empty() { return if
lava.contains(&'#') {0} else {1}; }`. -/
def pf_base (lava : List Char) : Nat :=
  if '#' ∈ lava then 0 else 1

/-- One iteration of the `for i in 0..bound` loop of `possible_failures`.
`rec'` performs the recursive call on the remaining springs.  The `break` on
a '#' in `lava[..min(len,i)]` is embedded as "contribute nothing": the broken
prefix test is monotone in `i`, so every later iteration of the source loop
would have been skipped by the same test and performs no recursive call. -/
def pf_iter (rec' : List Char → Option Nat) (lava : List Char) (current : Nat)
    (acc : Option Nat) (i : Nat) : Option Nat :=
  match acc with
  | none => none
  | some r =>
    if '#' ∈ lava.take (min lava.length i) then some r
    else
      if i + current ≤ lava.length
          ∧ '.' ∉ (lava.drop i).take (min lava.length (i + current) - i)
          ∧ (lava.drop (i + current)).take (min lava.length (i + current + 1) - (i + current)) ≠ ['#'] then
        match rec' (lava.drop (min lava.length (i + current + 1))) with
        | none => none
        | some v => some (r + v)
      else some r

/-- The recursive case of `possible_failures` for springs `current :: remaining`.
The loop bound `lava.len() - remaining.sum() - remaining.len() - current + 1`
is a chain of checked `usize` subtractions: it underflows (returns `none`,
i.e. panics) exactly when `lava.len() < remaining.sum() + remaining.len() + current`. -/
def pf_step (rec' : List Char → Option Nat) (lava : List Char) (current : Nat)
    (remainingSum remainingLen : Nat) : Option Nat :=
  if lava.length < remainingSum + remainingLen + current then none
  else
    (List.range (lava.length - remainingSum - remainingLen - current + 1)).foldl
      (pf_iter rec' lava current) (some 0)

/-- `possible_failures`, recursing on the springs list (each recursive call of
the source passes `&springs[1..]`). -/
def pf_go : List Nat → List Char → Option Nat
  | [] => fun lava => some (pf_base lava)
  | current :: remaining => fun lava =>
      pf_step (pf_go remaining) lava current remaining.sum remaining.length

/-- `MaintenanceRecord::possible_failures(lava, springs)`, without the memo
cache (the cache is modelled separately by `possible_failures_memo`). -/
def possible_failures (lava : List Char) (springs : List Nat) : Option Nat :=
  pf_go springs lava

/-! ### Specification side: arrangements

An arrangement is a total resolution of every `'?'` to `'.'` or `'#'` whose
maximal runs of `'#'` have exactly the given lengths.  We materialize the
resolutions as lists of `Bool` (`true` = Blocked) and count. -/

/-- All resolutions of a record: `'.'` forces `false`, `'#'` forces `true`,
anything else (`'?'`) may be either. -/
def resolutions : List Char → List (List Bool)
  | [] => [[]]
  | c :: cs =>
    if c = '.' then (resolutions cs).map (fun bs => false :: bs)
    else if c = '#' then (resolutions cs).map (fun bs => true :: bs)
    else (resolutions cs).map (fun bs => false :: bs)
          ++ (resolutions cs).map (fun bs => true :: bs)

/-- Lengths of the maximal runs of `true`, read left to right; `k` is the
length of the run currently in progress. -/
def runsAux : Nat → List Bool → List Nat
  | k, [] => if k = 0 then [] else [k]
  | k, true :: bs => runsAux (k + 1) bs
  | k, false :: bs => if k = 0 then runsAux 0 bs else k :: runsAux 0 bs

/-- The maximal run lengths of `true` cells of a resolved record. -/
def runLengths (bs : List Bool) : List Nat :=
  runsAux 0 bs

/-- The number of resolutions of `cs` whose run lengths, continued from a run
of `k` blocked cells already in progress, equal `gs`. -/
def countRun (k : Nat) (cs : List Char) (gs : List Nat) : Nat :=
  (resolutions cs).countP (fun bs => decide (runsAux k bs = gs))

/-- The number of arrangements of a record for a group spec: the reference
meaning of `count(record, groups)`. -/
def countSpec (lava : List Char) (gs : List Nat) : Nat :=
  (resolutions lava).countP (fun bs => decide (runLengths bs = gs))

/-- The unique resolution of a record without Unknown cells. -/
def toBools (s : List Char) : List Bool :=
  s.map (fun c => decide (c = '#'))

/-! ### The memoized engine

The source threads a `HashMap<(&[char], &[usize]), usize>` through the
recursion: lookup before anything else, insert after the loop (the empty-spec
early return does not insert).  Keys are borrowed slices compared by content,
so the cache is an association list keyed by `(List Char × List Nat)`. -/

/-- The memo cache of `possible_failures`, keyed by the remaining record and
the remaining spec (content equality, as for Rust slices). -/
def Cache := List ((List Char × List Nat) × Nat)

/-- `cache.get(&(lava, springs))`. -/
def cacheLookup (c : Cache) (k : List Char × List Nat) : Option Nat :=
  (List.find? (fun e => decide (e.1 = k)) c).map (fun e => e.2)

/-- One iteration of the loop of the memoized `possible_failures`, threading
the cache through the recursive calls. -/
def pfm_iter (rec' : List Char → Cache → Option (Nat × Cache)) (lava : List Char)
    (current : Nat) (acc : Option (Nat × Cache)) (i : Nat) : Option (Nat × Cache) :=
  match acc with
  | none => none
  | some (r, cache) =>
    if '#' ∈ lava.take (min lava.length i) then some (r, cache)
    else
      if i + current ≤ lava.length
          ∧ '.' ∉ (lava.drop i).take (min lava.length (i + current) - i)
          ∧ (lava.drop (i + current)).take (min lava.length (i + current + 1) - (i + current)) ≠ ['#'] then
        match rec' (lava.drop (min lava.length (i + current + 1))) cache with
        | none => none
        | some (v, cache') => some (r + v, cache')
      else some (r, cache)

/-- `possible_failures` with its memo cache, recursing on the springs list
(in the source the cache lookup comes first in every call; here it is spelled
once per shape of the springs list). -/
def pfm_go : List Nat → List Char → Cache → Option (Nat × Cache)
  | [] => fun lava cache =>
    match cacheLookup cache (lava, []) with
    | some v => some (v, cache)
    | none => some (pf_base lava, cache)
  | current :: remaining => fun lava cache =>
    match cacheLookup cache (lava, current :: remaining) with
    | some v => some (v, cache)
    | none =>
      if lava.length < remaining.sum + remaining.length + current then none
      else
        match (List.range (lava.length - remaining.sum - remaining.length - current + 1)).foldl
            (pfm_iter (pfm_go remaining) lava current) (some (0, cache)) with
        | none => none
        | some (r, cache') => some (r, ((lava, current :: remaining), r) :: cache')

/-- `MaintenanceRecord::possible_failures` with its cache argument. -/
def possible_failures_memo (lava : List Char) (springs : List Nat) (cache : Cache) :
    Option (Nat × Cache) :=
  pfm_go springs lava cache

/-! ### Records, parsing and the driver -/

/-- The `MaintenanceRecord` struct: the record (`springs`) and the group spec
(`damaged_springs`). -/
structure MaintenanceRecord where
  springs : List Char
  damaged_springs : List Nat
deriving DecidableEq, Repr

/-- The `ParseError` enum (only the variants this parser can produce). -/
inductive ParseErr where
  | parseIntError
deriving DecidableEq, Repr

/-- Outcome of a fallible Rust computation that can also panic (`assert!`). -/
inductive PRes (α : Type) where
  | panic
  | error (e : ParseErr)
  | ok (v : α)
deriving DecidableEq, Repr

/-- Rust's `str::split(sep)`: splits at every occurrence of `sep`, keeping
empty pieces; the empty string yields `[[]]`. -/
def splitOnChar (sep : Char) : List Char → List (List Char)
  | [] => [[]]
  | c :: rest =>
    if c = sep then [] :: splitOnChar sep rest
    else
      match splitOnChar sep rest with
      | h :: t => (c :: h) :: t
      | [] => [[c]]

/-- Rust's `str::parse::<usize>()`: an optional leading '+', then at least one
decimal digit, with the value below `2 ^ 64`; anything else is a
`ParseIntError`. -/
def parse_usize (s : List Char) : Option Nat :=
  let digits := match s with
    | '+' :: rest => rest
    | _ => s
  if digits = [] then none
  else if digits.all (fun c => c.isDigit) then
    let v := digits.foldl (fun a c => 10 * a + (c.toNat - 48)) 0
    if v < 2 ^ 64 then some v else none
  else none

/-- `MaintenanceRecord::parse_maintenance_record`: split on `' '`,
`assert!(parts.len() == 2)` (a panic when it fails), take the first part as
the record verbatim, and parse the comma-separated second part as `usize`
values, failing on the first bad field (`collect::<Result<_,_>>()?`). -/
def parse_maintenance_record (line : List Char) : PRes MaintenanceRecord :=
  match splitOnChar ' ' line with
  | [recordPart, specPart] =>
    match (splitOnChar ',' specPart).mapM parse_usize with
    | some ns => .ok ⟨recordPart, ns⟩
    | none => .error .parseIntError
  | _ => .panic

/-- `MaintenanceRecord::parse_all_maintenance_records`: parse each line,
returning the first failure (the `?` operator) and otherwise the records in
order. -/
def parse_all_maintenance_records : List (List Char) → PRes (List MaintenanceRecord)
  | [] => .ok []
  | l :: ls =>
    match parse_maintenance_record l with
    | .panic => .panic
    | .error e => .error e
    | .ok r =>
      match parse_all_maintenance_records ls with
      | .panic => .panic
      | .error e => .error e
      | .ok rs => .ok (r :: rs)

/-- `MaintenanceRecord::count_possible_failures`: a fresh cache per call. -/
def count_possible_failures (r : MaintenanceRecord) : Option Nat :=
  (possible_failures_memo r.springs r.damaged_springs []).map Prod.fst

/-- The record built by `count_possible_failures_unfold`: `for i in 0..5`
extend with the springs and push a `'?'` separator while `i < 4`. -/
def unfold_springs (springs : List Char) : List Char :=
  (List.range 5).foldl
    (fun acc i => (acc ++ springs) ++ (if i < 4 then ['?'] else [])) []

/-- The spec built by `count_possible_failures_unfold`:
`damaged_springs.repeat(5)`. -/
def unfold_groups (gs : List Nat) : List Nat :=
  (List.replicate 5 gs).flatten

/-- `MaintenanceRecord::count_possible_failures_unfold`: unfold five-fold,
then count with a fresh cache. -/
def count_possible_failures_unfold (r : MaintenanceRecord) : Option Nat :=
  (possible_failures_memo (unfold_springs r.springs) (unfold_groups r.damaged_springs) []).map
    Prod.fst

/-- Modelled from the spec: the parametric `unfold(record, groups, factor)`
operation of section 4.3 is absent from the code, which fixes the factor to 5
inside `count_possible_failures_unfold`; this definition follows the spec's
words (`factor` concatenations of the record joined by a single Unknown cell,
`factor` concatenations of the groups). -/
def unfold_spec (record : List Char) (groups : List Nat) (factor : Nat) :
    List Char × List Nat :=
  (List.intercalate ['?'] (List.replicate factor record),
    (List.replicate factor groups).flatten)

/-- The two totals printed by `main`: `none` models any panic on the way
(parse `expect` or a counting panic). -/
def main_totals (lines : List (List Char)) : Option (Nat × Nat) :=
  match parse_all_maintenance_records lines with
  | .ok records =>
    match records.mapM count_possible_failures with
    | some counts =>
      match records.mapM count_possible_failures_unfold with
      | some countsUnfold => some (counts.sum, countsUnfold.sum)
      | none => none
    | none => none
  | _ => none

/-! ### A tabulated evaluator for `countSpec`

Kernel-evaluating the memoized engine on the five-fold unfolded records is
infeasible, so concrete unfolded counts are obtained through `countSpec` and
this row-by-row tabulation, proved equal to `countSpec` below. -/

/-- `rowBase lava` lists `countSpec (lava.drop j) []` for `j = 0 .. lava.length`. -/
def rowBase : List Char → List Nat
  | [] => [1]
  | c :: cs =>
    let r := rowBase cs
    (if c = '#' then 0 else r.headD 0) :: r

/-- Step of the tabulation: from the row of `rest` over `cs` (argument `R`),
produce the row of `g :: rest` over `cs`. -/
def rowStep (g : Nat) : List Char → List Nat → List Nat
  | [], _ => [0]
  | c :: cs, R =>
    let N := rowStep g cs R.tail
    let fit :=
      if g ≤ cs.length + 1 ∧ '.' ∉ (c :: cs).take g ∧ ((c :: cs).drop g).headD '.' ≠ '#'
      then R.getD (min (g + 1) (cs.length + 1)) 0 else 0
    (fit + (if c = '#' then 0 else N.headD 0)) :: N

/-- The row of `countSpec (lava.drop j) gs` values, built group by group. -/
def tabRow (lava : List Char) : List Nat → List Nat
  | [] => rowBase lava
  | g :: rest => rowStep g lava (tabRow lava rest)

/-- Tabulated arrangement count (equal to `countSpec`, proved below). -/
def tabCount (lava : List Char) (gs : List Nat) : Nat :=
  (tabRow lava gs).headD 0

/-- Completion of a partially placed run: `runFit m cs rest` counts the
resolutions of `cs` that begin with `m` further blocked cells, then a
separator (or the end, with `rest` exhausted), then arrangements for `rest`. -/
def runFit : Nat → List Char → List Nat → Nat
  | 0, [], rest => if rest = [] then 1 else 0
  | 0, c :: cs, rest => if c = '#' then 0 else countSpec cs rest
  | _ + 1, [], _ => 0
  | m + 1, c :: cs, rest => if c = '.' then 0 else runFit m cs rest

/-- Contribution of a run of length `g` placed at the head of `s`: the cells
`s[0..g]` resolve to blocked, the cell at `g` (if any) to clear, and the rest
of the record realizes `rest`. -/
def fitHead (g : Nat) (s : List Char) (rest : List Nat) : Nat :=
  if g ≤ s.length ∧ '.' ∉ s.take g ∧ (s.drop g).headD '.' ≠ '#'
  then countSpec (s.drop (g + 1)) rest else 0

/-- Contribution of a run of length `g` placed at offset `i` of `lava`. -/
def place (g : Nat) (rest : List Nat) (lava : List Char) (i : Nat) : Nat :=
  if '#' ∈ lava.take i then 0 else fitHead g (lava.drop i) rest

/-- The contribution of iteration `i` of the loop: `some 0` when the
iteration adds nothing, the recursive call's result when it recurses, `none`
when that call panics. -/
def pf_contrib (rec' : List Char → Option Nat) (lava : List Char) (current : Nat)
    (i : Nat) : Option Nat :=
  if '#' ∈ lava.take (min lava.length i) then some 0
  else
    if i + current ≤ lava.length
        ∧ '.' ∉ (lava.drop i).take (min lava.length (i + current) - i)
        ∧ (lava.drop (i + current)).take (min lava.length (i + current + 1) - (i + current)) ≠ ['#'] then
      rec' (lava.drop (min lava.length (i + current + 1)))
    else some 0

/-- A cache is consistent when every stored value is the value the uncached
recursion computes for its key. -/
def CacheOK (c : Cache) : Prop :=
  ∀ (la : List Char) (sp : List Nat) (v : Nat),
    cacheLookup c (la, sp) = some v → pf_go sp la = some v

/-! ### Lemmas: runs -/

theorem runsAux_pos_head : ∀ (bs : List Bool) (k : Nat), 1 ≤ k →
    ∃ m t, runsAux k bs = m :: t ∧ k ≤ m := by
  intro bs
  induction bs with
  | nil =>
    intro k hk
    exact ⟨k, [], by simp [runsAux, Nat.pos_iff_ne_zero.mp hk], le_refl k⟩
  | cons b bs ih =>
    intro k hk
    cases b with
    | false =>
      exact ⟨k, runsAux 0 bs, by simp [runsAux, Nat.pos_iff_ne_zero.mp hk], le_refl k⟩
    | true =>
      obtain ⟨m, t, h1, h2⟩ := ih (k + 1) (by omega)
      exact ⟨m, t, by simpa [runsAux] using h1, by omega⟩

theorem runsAux_minlen : ∀ (bs : List Bool) (k : Nat) (gs : List Nat),
    runsAux k bs = gs → gs ≠ [] → gs.sum + gs.length ≤ bs.length + k + 1 := by
  intro bs
  induction bs with
  | nil =>
    intro k gs h hne
    by_cases hk : k = 0
    · subst hk
      simp only [runsAux, if_pos rfl] at h
      exact absurd h.symm hne
    · simp only [runsAux, if_neg hk] at h
      subst h
      simp only [List.sum_cons, List.sum_nil, List.length_cons, List.length_nil]
      omega
  | cons b bs ih =>
    intro k gs h hne
    cases b with
    | true =>
      simp only [runsAux] at h
      have h2 := ih (k + 1) gs h hne
      simp only [List.length_cons] at h2 ⊢
      omega
    | false =>
      by_cases hk : k = 0
      · subst hk
        simp only [runsAux, if_pos rfl] at h
        have h2 := ih 0 gs h hne
        simp only [List.length_cons] at h2 ⊢
        omega
      · simp only [runsAux, if_neg hk] at h
        rcases hr : runsAux 0 bs with - | ⟨r, rs⟩
        · rw [hr] at h
          subst h
          simp only [List.sum_cons, List.sum_nil, List.length_cons, List.length_nil]
          omega
        · rw [hr] at h
          have h2 := ih 0 (r :: rs) hr (by simp)
          subst h
          simp only [List.sum_cons, List.length_cons, List.length_nil] at h2 ⊢
          omega

theorem runsAux_snoc_false : ∀ (bs : List Bool) (k : Nat),
    runsAux k (bs ++ [false]) = runsAux k bs := by
  intro bs
  induction bs with
  | nil =>
    intro k
    by_cases hk : k = 0 <;> simp [runsAux, hk]
  | cons b bs ih =>
    intro k
    cases b with
    | true => simp [runsAux, ih]
    | false => by_cases hk : k = 0 <;> simp [runsAux, hk, ih]

/-! ### Lemmas: resolutions -/

theorem length_of_mem_resolutions : ∀ (s : List Char) (bs : List Bool),
    bs ∈ resolutions s → bs.length = s.length := by
  intro s
  induction s with
  | nil => intro bs h; simp [resolutions] at h; simp [h]
  | cons c cs ih =>
    intro bs h
    simp only [resolutions] at h
    split_ifs at h <;> simp only [List.mem_append, List.mem_map] at h <;>
      [skip; skip; rcases h with h | h] <;>
      obtain ⟨bs', hmem, rfl⟩ := h <;> simp [ih bs' hmem]

theorem resolutions_ne_nil (s : List Char) : resolutions s ≠ [] := by
  induction s with
  | nil => simp [resolutions]
  | cons c cs ih => simp only [resolutions]; split_ifs <;> simp [ih]

/-- A record without Unknown cells has exactly one resolution. -/
theorem resolutions_no_unknown : ∀ (s : List Char), (∀ c ∈ s, c = '.' ∨ c = '#') →
    resolutions s = [toBools s] := by
  intro s
  induction s with
  | nil => intro _; rfl
  | cons c cs ih =>
    intro h
    have hc := h c (by simp)
    have hcs := ih (fun x hx => h x (by simp [hx]))
    rcases hc with hc | hc <;> subst hc <;> simp [resolutions, toBools, hcs]

/-! ### Lemmas: the `countRun` recurrences -/

theorem countSpec_eq_countRun (s : List Char) (gs : List Nat) :
    countSpec s gs = countRun 0 s gs := rfl

theorem countSpec_nil (gs : List Nat) :
    countSpec [] gs = if gs = [] then 1 else 0 := by
  simp only [countSpec, resolutions, List.countP_cons, List.countP_nil, runLengths, runsAux,
    if_pos rfl]
  by_cases h : gs = [] <;> simp [h, eq_comm]

theorem countRun_nil (k : Nat) (gs : List Nat) :
    countRun k [] gs = if runsAux k [] = gs then 1 else 0 := by
  simp only [countRun, resolutions, List.countP_cons, List.countP_nil]
  by_cases h : runsAux k [] = gs <;> simp [h]

theorem countRun_cons (k : Nat) (c : Char) (cs : List Char) (gs : List Nat) :
    countRun k (c :: cs) gs =
      (if c = '#' then 0
        else (resolutions cs).countP (fun bs => decide (runsAux k (false :: bs) = gs)))
      + (if c = '.' then 0
        else (resolutions cs).countP (fun bs => decide (runsAux k (true :: bs) = gs))) := by
  by_cases h1 : c = '.'
  · subst h1
    simp [countRun, resolutions, List.countP_map, Function.comp_def]
  · by_cases h2 : c = '#'
    · subst h2
      simp [countRun, resolutions, List.countP_map, Function.comp_def]
    · simp [countRun, resolutions, h1, h2, List.countP_append, List.countP_map,
        Function.comp_def]
theorem branchT (k : Nat) (cs : List Char) (gs : List Nat) :
    (resolutions cs).countP (fun bs => decide (runsAux k (true :: bs) = gs)) =
      countRun (k + 1) cs gs := by
  unfold countRun
  apply List.countP_congr
  intro bs _
  simp [runsAux]

theorem branchF0 (cs : List Char) (gs : List Nat) :
    (resolutions cs).countP (fun bs => decide (runsAux 0 (false :: bs) = gs)) =
      countRun 0 cs gs := by
  unfold countRun
  apply List.countP_congr
  intro bs _
  simp [runsAux]

theorem branchF_pos_cons (k g : Nat) (cs : List Char) (rest : List Nat) (hk : k ≠ 0) :
    (resolutions cs).countP (fun bs => decide (runsAux k (false :: bs) = g :: rest)) =
      if k = g then countRun 0 cs rest else 0 := by
  by_cases h : k = g
  · subst h
    rw [if_pos rfl]
    unfold countRun
    apply List.countP_congr
    intro bs _
    simp [runsAux, hk]
  · rw [if_neg h, List.countP_eq_zero]
    intro bs _
    simp only [runsAux, if_neg hk, decide_eq_true_eq, List.cons.injEq, not_and]
    intro hkg
    exact absurd hkg h

theorem countRun_big (k g : Nat) (cs : List Char) (rest : List Nat) (h : g < k) :
    countRun k cs (g :: rest) = 0 := by
  unfold countRun
  rw [List.countP_eq_zero]
  intro bs _
  obtain ⟨m, t, h1, h2⟩ := runsAux_pos_head bs k (by omega)
  simp only [h1, decide_eq_true_eq, List.cons.injEq, not_and]
  intro hm
  exact absurd hm (by omega)

theorem countRun_pos_nil (k : Nat) (cs : List Char) (hk : k ≠ 0) :
    countRun k cs [] = 0 := by
  unfold countRun
  rw [List.countP_eq_zero]
  intro bs _
  obtain ⟨m, t, h1, _⟩ := runsAux_pos_head bs k (by omega)
  simp [h1]

theorem countSpec_no_groups : ∀ (s : List Char), countSpec s [] = if '#' ∈ s then 0 else 1 := by
  intro s
  induction s with
  | nil => simp [countSpec_nil]
  | cons c cs ih =>
    rw [countSpec_eq_countRun, countRun_cons]
    by_cases h2 : c = '#'
    · subst h2
      rw [if_pos rfl, branchT, countRun_pos_nil 1 cs (by omega)]
      simp
    · by_cases h1 : c = '.'
      · subst h1
        rw [if_neg (by decide), if_pos rfl, branchF0, ← countSpec_eq_countRun, ih]
        simp
      · rw [if_neg h2, if_neg h1, branchF0, branchT, countRun_pos_nil 1 cs (by omega),
          ← countSpec_eq_countRun, ih]
        have hmem : ('#' ∈ c :: cs) ↔ ('#' ∈ cs) := by
          constructor
          · intro h
            rcases List.mem_cons.mp h with h | h
            · exact absurd h.symm h2
            · exact h
          · exact fun h => List.mem_cons_of_mem c h
        simp [hmem]

theorem countRun_eq_runFit : ∀ (cs : List Char) (k m : Nat) (rest : List Nat), k ≠ 0 →
    countRun k cs ((k + m) :: rest) = runFit m cs rest := by
  intro cs
  induction cs with
  | nil =>
    intro k m rest hk
    rw [countRun_nil]
    simp only [runsAux, if_neg hk]
    rcases m with - | m
    · by_cases h : rest = []
      · subst h; simp [runFit]
      · rw [if_neg (by simp [h]), runFit, if_neg h]
    · rw [if_neg (by simp)]
      simp [runFit]
  | cons c cs ih =>
    intro k m rest hk
    rw [countRun_cons]
    by_cases h1 : c = '.'
    · subst h1
      rw [if_neg (by decide), if_pos rfl, branchF_pos_cons k (k + m) cs rest hk, Nat.add_zero]
      rcases m with - | m
      · rw [if_pos (by omega)]
        simp [runFit, ← countSpec_eq_countRun]
      · rw [if_neg (by omega)]
        simp [runFit]
    · by_cases h2 : c = '#'
      · subst h2
        rw [if_pos rfl, if_neg (by decide), branchT, Nat.zero_add]
        rcases m with - | m
        · rw [show k + 0 = k from rfl, countRun_big (k + 1) k cs rest (by omega)]
          simp [runFit]
        · rw [show k + (m + 1) = (k + 1) + m by omega, ih (k + 1) m rest (by omega)]
          simp [runFit]
      · rw [if_neg h2, if_neg h1, branchT, branchF_pos_cons k (k + m) cs rest hk]
        rcases m with - | m
        · rw [if_pos (by omega), show k + 0 = k from rfl,
            countRun_big (k + 1) k cs rest (by omega)]
          simp [runFit, h2, ← countSpec_eq_countRun]
        · rw [if_neg (by omega), show k + (m + 1) = (k + 1) + m by omega,
            ih (k + 1) m rest (by omega)]
          simp [runFit, h1]

theorem runFit_eq : ∀ (cs : List Char) (m : Nat) (rest : List Nat),
    runFit m cs rest =
      if m ≤ cs.length ∧ '.' ∉ cs.take m ∧ (cs.drop m).headD '.' ≠ '#'
      then countSpec (cs.drop (m + 1)) rest else 0 := by
  intro cs
  induction cs with
  | nil =>
    intro m rest
    rcases m with - | m
    · rw [if_pos (by simp)]
      simp [runFit, countSpec_nil]
    · rw [if_neg (by simp)]
      simp [runFit]
  | cons c cs ih =>
    intro m rest
    rcases m with - | m
    · simp only [runFit, List.take_zero, List.drop_zero, List.drop_succ_cons]
      by_cases h : c = '#'
      · rw [if_pos h, if_neg (by simp [List.headD, h])]
      · rw [if_neg h, if_pos (by simp [List.headD, h])]
    · simp only [runFit, List.take_succ_cons, List.drop_succ_cons]
      by_cases h : c = '.'
      · rw [if_pos h, if_neg (by simp [h])]
      · rw [if_neg h, ih m rest]
        simp only [List.length_cons]
        by_cases hcond : m ≤ cs.length ∧ '.' ∉ cs.take m ∧ (cs.drop m).headD '.' ≠ '#'
        · rw [if_pos hcond]
          rw [if_pos (show m + 1 ≤ cs.length + 1 ∧ '.' ∉ c :: cs.take m ∧ (cs.drop m).headD '.' ≠ '#' from
            ⟨by omega,
              by simp only [List.mem_cons, not_or]; exact ⟨fun hh => h hh.symm, hcond.2.1⟩,
              hcond.2.2⟩)]
        · rw [if_neg hcond]
          rw [if_neg (show ¬ (m + 1 ≤ cs.length + 1 ∧ '.' ∉ c :: cs.take m ∧ (cs.drop m).headD '.' ≠ '#') from
            fun ⟨a, b, d⟩ => hcond ⟨by omega, fun hb => b (List.mem_cons_of_mem c hb), d⟩)]

/-- The head recurrence of arrangement counting: for `1 ≤ g` the arrangements
of `c :: cs` split into those whose first run starts at offset 0 and those
whose first cell resolves to clear. -/
theorem countSpec_headRec (g : Nat) (rest : List Nat) (c : Char) (cs : List Char) (hg : g ≠ 0) :
    countSpec (c :: cs) (g :: rest) =
      fitHead g (c :: cs) rest + (if c = '#' then 0 else countSpec cs (g :: rest)) := by
  obtain ⟨m, rfl⟩ : ∃ m, g = m + 1 := ⟨g - 1, by omega⟩
  have hfit : fitHead (m + 1) (c :: cs) rest = if c = '.' then 0 else runFit m cs rest := by
    rw [fitHead, runFit_eq]
    simp only [List.length_cons, List.take_succ_cons, List.drop_succ_cons]
    by_cases h : c = '.'
    · rw [if_pos h, if_neg (by simp [h])]
    · by_cases hcond : m ≤ cs.length ∧ '.' ∉ cs.take m ∧ (cs.drop m).headD '.' ≠ '#'
      · rw [if_neg h, if_pos hcond]
        rw [if_pos (show m + 1 ≤ cs.length + 1 ∧ '.' ∉ c :: cs.take m ∧ (cs.drop m).headD '.' ≠ '#' from
          ⟨by omega,
            by simp only [List.mem_cons, not_or]; exact ⟨fun hh => h hh.symm, hcond.2.1⟩,
            hcond.2.2⟩)]
      · rw [if_neg h, if_neg hcond]
        rw [if_neg (show ¬ (m + 1 ≤ cs.length + 1 ∧ '.' ∉ c :: cs.take m ∧ (cs.drop m).headD '.' ≠ '#') from
          fun ⟨a, b, d⟩ => hcond ⟨by omega, fun hb => b (List.mem_cons_of_mem c hb), d⟩)]
  rw [hfit, countSpec_eq_countRun, countRun_cons]
  by_cases h1 : c = '.'
  · subst h1
    rw [branchF0, ← countSpec_eq_countRun]
    simp
  · by_cases h2 : c = '#'
    · subst h2
      rw [branchT, show m + 1 = 1 + m by omega, countRun_eq_runFit cs 1 m rest (by omega)]
      simp
    · rw [branchF0, branchT, show m + 1 = 1 + m by omega,
        countRun_eq_runFit cs 1 m rest (by omega), ← countSpec_eq_countRun]
      simp only [if_neg h1, if_neg h2]
      omega

theorem drop_min_length (s : List α) (k : Nat) : s.drop (min s.length k) = s.drop k := by
  rcases Nat.le_total s.length k with h | h
  · rw [min_eq_left h, List.drop_length, List.drop_eq_nil_of_le h]
  · rw [min_eq_right h]

theorem countSpec_short (s : List Char) (g : Nat) (rest : List Nat)
    (h : s.length + 1 < (g :: rest).sum + (g :: rest).length) :
    countSpec s (g :: rest) = 0 := by
  unfold countSpec
  rw [List.countP_eq_zero]
  intro bs hmem
  simp only [decide_eq_true_eq]
  intro hr
  have hlen := length_of_mem_resolutions s bs hmem
  have hmin := runsAux_minlen bs 0 (g :: rest) hr (by simp)
  omega

theorem place_zero (g : Nat) (rest : List Nat) (lava : List Char) :
    place g rest lava 0 = fitHead g lava rest := by
  simp [place]

theorem place_succ (g : Nat) (rest : List Nat) (c : Char) (cs : List Char) (i : Nat) :
    place g rest (c :: cs) (i + 1) = if c = '#' then 0 else place g rest cs i := by
  unfold place
  simp only [List.take_succ_cons, List.drop_succ_cons, List.mem_cons]
  by_cases h : c = '#'
  · rw [if_pos (Or.inl h.symm), if_pos h]
  · rw [if_neg h]
    by_cases h3 : '#' ∈ cs.take i
    · rw [if_pos (Or.inr h3), if_pos h3]
    · rw [if_neg (fun hh => hh.elim (fun e => h e.symm) h3), if_neg h3]

/-- First-run decomposition, over all offsets: an arrangement of `lava` for
`g :: rest` places its first run at a unique offset `i`. -/
theorem countSpec_eq_sum_place (g : Nat) (rest : List Nat) (hg : g ≠ 0) :
    ∀ lava : List Char,
    countSpec lava (g :: rest) = ((List.range (lava.length + 1)).map (place g rest lava)).sum := by
  intro lava
  induction lava with
  | nil =>
    rw [countSpec_nil, if_neg (by simp)]
    have h1 : List.range 1 = [0] := rfl
    simp [h1, place, fitHead, hg, Nat.le_zero]
  | cons c cs ih =>
    have hrange : List.range (cs.length + 1 + 1) = 0 :: (List.range (cs.length + 1)).map Nat.succ :=
      List.range_succ_eq_map _
    rw [List.length_cons, hrange]
    simp only [List.map_cons, List.map_map, List.sum_cons]
    have hcomp : ∀ i, (place g rest (c :: cs) ∘ Nat.succ) i =
        if c = '#' then 0 else place g rest cs i := by
      intro i
      simp only [Function.comp_apply, Nat.succ_eq_add_one, place_succ]
    rw [place_zero]
    by_cases h : c = '#'
    · have hz : ((List.range (cs.length + 1)).map (place g rest (c :: cs) ∘ Nat.succ)).sum = 0 := by
        apply List.sum_eq_zero
        intro x hx
        simp only [List.mem_map] at hx
        obtain ⟨i, _, rfl⟩ := hx
        rw [hcomp i, if_pos h]
      rw [hz, countSpec_headRec g rest c cs hg, if_pos h]
    · have hmap : (List.range (cs.length + 1)).map (place g rest (c :: cs) ∘ Nat.succ) =
          (List.range (cs.length + 1)).map (place g rest cs) := by
        apply List.map_congr_left
        intro i _
        rw [hcomp i, if_neg h]
      rw [hmap, ← ih, countSpec_headRec g rest c cs hg, if_neg h]

theorem sum_map_range_zero_tail (f : Nat → Nat) (a : Nat) :
    ∀ (b : Nat), a ≤ b → (∀ i, a ≤ i → i < b → f i = 0) →
    ((List.range b).map f).sum = ((List.range a).map f).sum := by
  intro b
  induction b with
  | zero =>
    intro hab _
    have : a = 0 := by omega
    subst this
    rfl
  | succ b ihb =>
    intro hab h
    by_cases hb : a = b + 1
    · subst hb; rfl
    · have hab2 : a ≤ b := by omega
      rw [List.range_succ, List.map_append, List.sum_append,
        ihb hab2 (fun i h1 h2 => h i h1 (by omega))]
      simp [h b hab2 (by omega)]

/-- Beyond the source's pruning bound no offset contributes: there is not
enough room left for the remaining groups and their separators. -/
theorem place_trunc (g : Nat) (rest : List Nat) (lava : List Char) (i : Nat)
    (hg : g ≠ 0) (hpos : ∀ x ∈ rest, x ≠ 0)
    (hi : lava.length - (g + rest.sum + rest.length) + 1 ≤ i) :
    place g rest lava i = 0 := by
  unfold place fitHead
  by_cases hbrk : '#' ∈ lava.take i
  · rw [if_pos hbrk]
  · rw [if_neg hbrk]
    by_cases hcond : g ≤ (lava.drop i).length ∧ '.' ∉ (lava.drop i).take g
        ∧ ((lava.drop i).drop g).headD '.' ≠ '#'
    · rw [if_pos hcond]
      have hglen := hcond.1
      simp only [List.length_drop] at hglen
      rcases rest with - | ⟨r, rs⟩
      · exfalso
        simp only [List.sum_nil, List.length_nil] at hi
        omega
      · have hr : r ≠ 0 := hpos r (by simp)
        apply countSpec_short
        simp only [List.drop_drop, List.length_drop, List.sum_cons, List.length_cons] at *
        omega
    · rw [if_neg hcond]
theorem pf_iter_some (rec' : List Char → Option Nat) (lava : List Char) (current r i : Nat) :
    pf_iter rec' lava current (some r) i =
      (pf_contrib rec' lava current i).map (fun v => r + v) := by
  simp only [pf_iter, pf_contrib]
  by_cases h1 : '#' ∈ lava.take (min lava.length i)
  · rw [if_pos h1, if_pos h1]
    rfl
  · rw [if_neg h1, if_neg h1]
    by_cases h2 : i + current ≤ lava.length
        ∧ '.' ∉ (lava.drop i).take (min lava.length (i + current) - i)
        ∧ (lava.drop (i + current)).take (min lava.length (i + current + 1) - (i + current)) ≠ ['#']
    · rw [if_pos h2, if_pos h2]
      rcases hr : rec' (lava.drop (min lava.length (i + current + 1))) with - | v
      · rfl
      · rfl
    · rw [if_neg h2, if_neg h2]
      rfl

theorem foldl_pf_iter_none (rec' : List Char → Option Nat) (lava : List Char) (current : Nat) :
    ∀ is : List Nat, is.foldl (pf_iter rec' lava current) none = none := by
  intro is
  induction is with
  | nil => rfl
  | cons i is ih => exact ih

theorem foldl_pf_iter_some (rec' : List Char → Option Nat) (lava : List Char) (current : Nat) :
    ∀ (is : List Nat) (r : Nat),
    (∀ i ∈ is, (pf_contrib rec' lava current i).isSome) →
    is.foldl (pf_iter rec' lava current) (some r) =
      some (r + (is.map (fun i => (pf_contrib rec' lava current i).getD 0)).sum) := by
  intro is
  induction is with
  | nil => intro r _; simp
  | cons i is ih =>
    intro r h
    rw [List.foldl_cons, pf_iter_some]
    obtain ⟨v, hv⟩ := Option.isSome_iff_exists.mp (h i (by simp))
    rw [hv, Option.map_some']
    rw [ih (r + v) (fun j hj => h j (by simp [hj]))]
    simp [hv, Nat.add_assoc]

theorem pf_go_isSome : ∀ (springs : List Nat) (lava : List Char),
    springs.sum + springs.length ≤ lava.length + 1 → (pf_go springs lava).isSome := by
  intro springs
  induction springs with
  | nil => intro lava _; simp [pf_go]
  | cons current remaining ih =>
    intro lava hfit
    simp only [List.sum_cons, List.length_cons] at hfit
    simp only [pf_go, pf_step]
    rw [if_neg (by omega)]
    have hall : ∀ j ∈ List.range (lava.length - remaining.sum - remaining.length - current + 1),
        (pf_contrib (pf_go remaining) lava current j).isSome := by
      intro j hj
      simp only [List.mem_range] at hj
      unfold pf_contrib
      by_cases h1 : '#' ∈ lava.take (min lava.length j)
      · simp [h1]
      · rw [if_neg h1]
        by_cases h2 : j + current ≤ lava.length
            ∧ '.' ∉ (lava.drop j).take (min lava.length (j + current) - j)
            ∧ (lava.drop (j + current)).take (min lava.length (j + current + 1) - (j + current)) ≠ ['#']
        · rw [if_pos h2]
          apply ih
          rw [drop_min_length, List.length_drop]
          omega
        · simp [h2]
    rw [foldl_pf_iter_some (pf_go remaining) lava current _ 0 hall]
    rfl

theorem pf_contrib_eq (remaining : List Nat) (lava : List Char) (current i : Nat)
    (hIH : ∀ (s : List Char) (v : Nat), pf_go remaining s = some v → v = countSpec s remaining)
    (hfit : i + current + remaining.sum + remaining.length ≤ lava.length) :
    pf_contrib (pf_go remaining) lava current i = some (place current remaining lava i) := by
  have hi_le : i ≤ lava.length := by omega
  unfold pf_contrib place
  rw [min_eq_right hi_le]
  by_cases hbrk : '#' ∈ lava.take i
  · rw [if_pos hbrk, if_pos hbrk]
  · rw [if_neg hbrk, if_neg hbrk]
    have hic : i + current ≤ lava.length := by omega
    have e1 : min lava.length (i + current) - i = current := by
      rw [min_eq_right hic]; omega
    rw [e1]
    unfold fitHead
    have e2 : (lava.drop i).drop current = lava.drop (i + current) := List.drop_drop current i lava
    have e3 : (lava.drop i).length = lava.length - i := List.length_drop i lava
    have hcur_le : current ≤ (lava.drop i).length := by rw [e3]; omega
    have hsep : ((lava.drop (i + current)).take (min lava.length (i + current + 1) - (i + current)) ≠ ['#'])
        ↔ ((lava.drop (i + current)).headD '.' ≠ '#') := by
      rcases hL : lava.drop (i + current) with - | ⟨x, xs⟩
      · simp
      · have hlen2 : i + current < lava.length := by
          have hLL := congrArg List.length hL
          rw [List.length_drop] at hLL
          simp only [List.length_cons] at hLL
          omega
        rw [min_eq_right (by omega : i + current + 1 ≤ lava.length)]
        have h1 : i + current + 1 - (i + current) = 1 := by omega
        rw [h1]
        simp [List.headD]
    have hcond : (i + current ≤ lava.length
          ∧ '.' ∉ (lava.drop i).take current
          ∧ (lava.drop (i + current)).take (min lava.length (i + current + 1) - (i + current)) ≠ ['#'])
        ↔ (current ≤ (lava.drop i).length ∧ '.' ∉ (lava.drop i).take current
          ∧ ((lava.drop i).drop current).headD '.' ≠ '#') := by
      rw [e2]
      constructor
      · rintro ⟨_, hb, hs⟩
        exact ⟨hcur_le, hb, hsep.mp hs⟩
      · rintro ⟨_, hb, hs⟩
        exact ⟨hic, hb, hsep.mpr hs⟩
    by_cases hfull : current ≤ (lava.drop i).length ∧ '.' ∉ (lava.drop i).take current
        ∧ ((lava.drop i).drop current).headD '.' ≠ '#'
    · rw [if_pos (hcond.mpr hfull), if_pos hfull]
      have harg : lava.drop (min lava.length (i + current + 1)) = (lava.drop i).drop (current + 1) := by
        rw [drop_min_length, List.drop_drop]
        congr 1
      rw [harg]
      have hsome := pf_go_isSome remaining ((lava.drop i).drop (current + 1)) (by
        rw [List.drop_drop, List.length_drop]
        omega)
      obtain ⟨v, hv⟩ := Option.isSome_iff_exists.mp hsome
      rw [hv, hIH _ v hv]
    · rw [if_neg (fun hx => hfull (hcond.mp hx)), if_neg hfull]

theorem pf_go_correct : ∀ (springs : List Nat) (lava : List Char) (n : Nat),
    (∀ x ∈ springs, x ≠ 0) → pf_go springs lava = some n → n = countSpec lava springs := by
  intro springs
  induction springs with
  | nil =>
    intro lava n _ h
    simp only [pf_go, Option.some.injEq] at h
    rw [← h, countSpec_no_groups]
    rfl
  | cons current remaining ih =>
    intro lava n hpos h
    have hcur : current ≠ 0 := hpos current (by simp)
    have hpos2 : ∀ x ∈ remaining, x ≠ 0 := fun x hx => hpos x (by simp [hx])
    simp only [pf_go, pf_step] at h
    by_cases hguard : lava.length < remaining.sum + remaining.length + current
    · rw [if_pos hguard] at h
      exact absurd h (by simp)
    · rw [if_neg hguard] at h
      have hcontrib : ∀ j ∈ List.range (lava.length - remaining.sum - remaining.length - current + 1),
          pf_contrib (pf_go remaining) lava current j = some (place current remaining lava j) := by
        intro j hj
        simp only [List.mem_range] at hj
        apply pf_contrib_eq remaining lava current j (fun s v hv => ih s v hpos2 hv)
        omega
      have hall : ∀ j ∈ List.range (lava.length - remaining.sum - remaining.length - current + 1),
          (pf_contrib (pf_go remaining) lava current j).isSome := by
        intro j hj
        rw [hcontrib j hj]
        rfl
      rw [foldl_pf_iter_some (pf_go remaining) lava current _ 0 hall] at h
      simp only [Option.some.injEq] at h
      have hmap : (List.range (lava.length - remaining.sum - remaining.length - current + 1)).map
            (fun j => (pf_contrib (pf_go remaining) lava current j).getD 0)
          = (List.range (lava.length - remaining.sum - remaining.length - current + 1)).map
            (place current remaining lava) := by
        apply List.map_congr_left
        intro j hj
        rw [hcontrib j hj]
        rfl
      rw [hmap] at h
      have hext : ((List.range (lava.length + 1)).map (place current remaining lava)).sum
          = ((List.range (lava.length - remaining.sum - remaining.length - current + 1)).map
              (place current remaining lava)).sum := by
        apply sum_map_range_zero_tail
        · omega
        · intro j h1 h2
          apply place_trunc current remaining lava j hcur hpos2
          omega
      rw [countSpec_eq_sum_place current remaining hcur lava, hext]
      omega

/-- The top-level guard is the only panic: `possible_failures` completes
whenever the groups with their separators fit in the record. -/
theorem possible_failures_isSome (lava : List Char) (springs : List Nat)
    (h : springs.sum + springs.length ≤ lava.length + 1) :
    ∃ n, possible_failures lava springs = some n :=
  Option.isSome_iff_exists.mp (pf_go_isSome springs lava h)

/-- Conversely, a completed call had a fitting top group (or none at all). -/
theorem possible_failures_some_fit (lava : List Char) (springs : List Nat) (n : Nat)
    (h : possible_failures lava springs = some n) :
    springs.sum + springs.length ≤ lava.length + 1 := by
  rcases springs with - | ⟨current, remaining⟩
  · simp
  · simp only [possible_failures, pf_go, pf_step] at h
    by_cases hguard : lava.length < remaining.sum + remaining.length + current
    · rw [if_pos hguard] at h
      exact absurd h (by simp)
    · simp only [List.sum_cons, List.length_cons]
      omega

/-- Whenever the engine returns a value it is exactly the arrangement count. -/
theorem possible_failures_correct (lava : List Char) (springs : List Nat) (n : Nat)
    (hpos : ∀ x ∈ springs, x ≠ 0) (h : possible_failures lava springs = some n) :
    n = countSpec lava springs :=
  pf_go_correct springs lava n hpos h

/-! ### Transparency of the memo cache -/

theorem cacheOK_nil : CacheOK [] := by
  intro la sp v h
  simp [cacheLookup, List.find?] at h

theorem cacheLookup_cons (k0 : List Char × List Nat) (v0 : Nat) (c : Cache)
    (k : List Char × List Nat) :
    cacheLookup ((k0, v0) :: c) k = if k0 = k then some v0 else cacheLookup c k := by
  by_cases h : k0 = k
  · rw [if_pos h]
    unfold cacheLookup
    rw [List.find?_cons_of_pos _ (by simp [h])]
    rfl
  · rw [if_neg h]
    unfold cacheLookup
    rw [List.find?_cons_of_neg _ (by simp [h])]

theorem foldl_pfm_iter_none (rec' : List Char → Cache → Option (Nat × Cache))
    (lava : List Char) (current : Nat) :
    ∀ is : List Nat, is.foldl (pfm_iter rec' lava current) none = none := by
  intro is
  induction is with
  | nil => rfl
  | cons i is ih => exact ih

theorem pfm_fold_sim (remaining : List Nat) (lava : List Char) (current : Nat)
    (ihrem : ∀ (s : List Char) (cc : Cache), CacheOK cc →
      ((pfm_go remaining s cc).map Prod.fst = pf_go remaining s
        ∧ ∀ p, pfm_go remaining s cc = some p → CacheOK p.2)) :
    ∀ (is : List Nat) (r : Nat) (c : Cache), CacheOK c →
    ((is.foldl (pfm_iter (pfm_go remaining) lava current) (some (r, c))).map Prod.fst
        = is.foldl (pf_iter (pf_go remaining) lava current) (some r)
      ∧ ∀ p, is.foldl (pfm_iter (pfm_go remaining) lava current) (some (r, c)) = some p →
          CacheOK p.2) := by
  intro is
  induction is with
  | nil =>
    intro r c hok
    refine ⟨rfl, ?_⟩
    intro p hp
    injection hp with h
    subst h
    exact hok
  | cons i is ihis =>
    intro r c hok
    rw [List.foldl_cons, List.foldl_cons]
    simp only [pfm_iter, pf_iter]
    by_cases h1 : '#' ∈ lava.take (min lava.length i)
    · rw [if_pos h1, if_pos h1]
      exact ihis r c hok
    · rw [if_neg h1, if_neg h1]
      by_cases h2 : i + current ≤ lava.length
          ∧ '.' ∉ (lava.drop i).take (min lava.length (i + current) - i)
          ∧ (lava.drop (i + current)).take (min lava.length (i + current + 1) - (i + current)) ≠ ['#']
      · rw [if_pos h2, if_pos h2]
        obtain ⟨hmap, hcache⟩ := ihrem (lava.drop (min lava.length (i + current + 1))) c hok
        rcases hm : pfm_go remaining (lava.drop (min lava.length (i + current + 1))) c
          with - | ⟨v, c2⟩
        · rw [hm] at hmap
          simp only [Option.map_none'] at hmap
          rw [← hmap]
          refine ⟨?_, ?_⟩
          · show (is.foldl (pfm_iter (pfm_go remaining) lava current) none).map Prod.fst
              = is.foldl (pf_iter (pf_go remaining) lava current) none
            rw [foldl_pfm_iter_none, foldl_pf_iter_none]
            rfl
          · intro p hp
            have hp2 : is.foldl (pfm_iter (pfm_go remaining) lava current) none = some p := hp
            rw [foldl_pfm_iter_none] at hp2
            exact absurd hp2 (by simp)
        · rw [hm] at hmap
          simp only [Option.map_some'] at hmap
          rw [← hmap]
          exact ihis (r + v) c2 (hcache _ hm)
      · rw [if_neg h2, if_neg h2]
        exact ihis r c hok

theorem pfm_go_nil_miss (lava : List Char) (c : Cache)
    (h : cacheLookup c (lava, []) = none) :
    pfm_go [] lava c = some (pf_base lava, c) := by
  simp only [pfm_go, h]

theorem pfm_go_nil_hit (lava : List Char) (c : Cache) (v : Nat)
    (h : cacheLookup c (lava, []) = some v) :
    pfm_go [] lava c = some (v, c) := by
  simp only [pfm_go, h]

theorem pfm_go_cons_hit (current : Nat) (remaining : List Nat) (lava : List Char)
    (c : Cache) (v : Nat) (h : cacheLookup c (lava, current :: remaining) = some v) :
    pfm_go (current :: remaining) lava c = some (v, c) := by
  simp only [pfm_go, h]

theorem pfm_go_cons_miss (current : Nat) (remaining : List Nat) (lava : List Char)
    (c : Cache) (h : cacheLookup c (lava, current :: remaining) = none) :
    pfm_go (current :: remaining) lava c =
      if lava.length < remaining.sum + remaining.length + current then none
      else match (List.range (lava.length - remaining.sum - remaining.length - current + 1)).foldl
          (pfm_iter (pfm_go remaining) lava current) (some (0, c)) with
        | none => none
        | some (r, cache2) => some (r, ((lava, current :: remaining), r) :: cache2) := by
  simp only [pfm_go, h]
  by_cases hg : lava.length < remaining.sum + remaining.length + current
  · rw [if_pos hg, if_pos hg]
  · rw [if_neg hg, if_neg hg]
    rcases (List.range (lava.length - remaining.sum - remaining.length - current + 1)).foldl
        (pfm_iter (pfm_go remaining) lava current) (some (0, c)) with - | ⟨r, c2⟩
    · rfl
    · rfl

theorem pfm_go_sim : ∀ (springs : List Nat) (lava : List Char) (c : Cache), CacheOK c →
    ((pfm_go springs lava c).map Prod.fst = pf_go springs lava
      ∧ ∀ p, pfm_go springs lava c = some p → CacheOK p.2) := by
  intro springs
  induction springs with
  | nil =>
    intro lava c hok
    rcases hl : cacheLookup c (lava, []) with - | v
    · rw [pfm_go_nil_miss lava c hl]
      refine ⟨rfl, ?_⟩
      intro p hp
      injection hp with h
      subst h
      exact hok
    · rw [pfm_go_nil_hit lava c v hl]
      have hv := hok lava [] v hl
      simp only [pf_go, Option.some.injEq] at hv
      refine ⟨?_, ?_⟩
      · show some v = pf_go [] lava
        simp only [pf_go, hv]
      · intro p hp
        injection hp with h
        subst h
        exact hok
  | cons current remaining ih =>
    intro lava c hok
    rcases hl : cacheLookup c (lava, current :: remaining) with - | v
    · rw [pfm_go_cons_miss current remaining lava c hl]
      by_cases hguard : lava.length < remaining.sum + remaining.length + current
      · rw [if_pos hguard]
        refine ⟨?_, ?_⟩
        · simp only [pf_go, pf_step]
          rw [if_pos hguard]
          rfl
        · intro p hp
          exact Option.noConfusion hp
      · rw [if_neg hguard]
        obtain ⟨hmap, hcache⟩ := pfm_fold_sim remaining lava current ih
          (List.range (lava.length - remaining.sum - remaining.length - current + 1)) 0 c hok
        have hpf : pf_go (current :: remaining) lava =
            (List.range (lava.length - remaining.sum - remaining.length - current + 1)).foldl
              (pf_iter (pf_go remaining) lava current) (some 0) := by
          simp only [pf_go, pf_step]
          rw [if_neg hguard]
        rcases hf : (List.range (lava.length - remaining.sum - remaining.length - current + 1)).foldl
            (pfm_iter (pfm_go remaining) lava current) (some (0, c)) with - | ⟨r, c2⟩
        · rw [hf] at hmap
          simp only [Option.map_none'] at hmap
          refine ⟨?_, ?_⟩
          · rw [hpf, ← hmap]
            rfl
          · intro p hp
            exact Option.noConfusion hp
        · rw [hf] at hmap
          simp only [Option.map_some'] at hmap
          refine ⟨?_, ?_⟩
          · rw [hpf, ← hmap]
            rfl
          · intro p hp
            have hp2 : some (r, ((lava, current :: remaining), r) :: c2) = some p := hp
            injection hp2 with h
            subst h
            intro la sp v hlk
            rw [cacheLookup_cons] at hlk
            by_cases hkey : ((lava, current :: remaining) : List Char × List Nat) = (la, sp)
            · rw [if_pos hkey] at hlk
              injection hlk with hv2
              rw [Prod.mk.injEq] at hkey
              obtain ⟨he1, he2⟩ := hkey
              subst he1
              subst he2
              rw [← hv2, hpf]
              exact hmap.symm
            · rw [if_neg hkey] at hlk
              exact hcache (r, c2) hf la sp v hlk
    · rw [pfm_go_cons_hit current remaining lava c v hl]
      have hv := hok lava (current :: remaining) v hl
      refine ⟨?_, ?_⟩
      · show some v = pf_go (current :: remaining) lava
        exact hv.symm
      · intro p hp
        injection hp with h
        subst h
        exact hok

/-- Running the memoized engine from the empty cache computes exactly the
uncached recursion. -/
theorem pfm_run_eq (lava : List Char) (springs : List Nat) :
    (possible_failures_memo lava springs []).map Prod.fst = possible_failures lava springs :=
  (pfm_go_sim springs lava [] cacheOK_nil).1

/-! ### Correctness of the tabulated evaluator -/

theorem range_map_shift (f : Nat → Nat) (n : Nat) :
    (List.range (n + 1)).map f = f 0 :: (List.range n).map (fun j => f (j + 1)) := by
  rw [List.range_succ_eq_map]
  simp only [List.map_cons, List.map_map]
  refine congrArg (f 0 :: ·) ?_
  apply List.map_congr_left
  intro j _
  simp [Function.comp, Nat.succ_eq_add_one]

theorem mem_cons_ne (c : Char) (cs : List Char) (h : c ≠ '#') :
    ('#' ∈ c :: cs) ↔ ('#' ∈ cs) :=
  ⟨fun hx => (List.mem_cons.mp hx).resolve_left (fun e => h e.symm),
    fun hx => List.mem_cons_of_mem c hx⟩

theorem countSpec_cons_no_groups (c : Char) (cs : List Char) :
    countSpec (c :: cs) [] = if c = '#' then 0 else countSpec cs [] := by
  rw [countSpec_no_groups, countSpec_no_groups]
  by_cases h : c = '#'
  · rw [if_pos h, if_pos (by simp [h])]
  · rw [if_neg h]
    simp [mem_cons_ne c cs h]

theorem rowBase_headD : ∀ cs : List Char, (rowBase cs).headD 0 = countSpec cs [] := by
  intro cs
  induction cs with
  | nil => simp [rowBase, countSpec_nil]
  | cons c cs ih =>
    simp only [rowBase, List.headD_cons, countSpec_cons_no_groups]
    rw [ih]

theorem rowBase_ok : ∀ lava : List Char,
    rowBase lava = (List.range (lava.length + 1)).map (fun j => countSpec (lava.drop j) []) := by
  intro lava
  induction lava with
  | nil =>
    have h1 : List.range 1 = [0] := rfl
    simp [rowBase, h1, countSpec_nil]
  | cons c cs ih =>
    simp only [List.length_cons]
    rw [range_map_shift]
    simp only [List.drop_zero, List.drop_succ_cons]
    rw [← ih]
    simp only [rowBase]
    congr 1
    rw [countSpec_cons_no_groups, rowBase_headD]

theorem getD_range_map (f : Nat → Nat) (n j : Nat) (hj : j < n) :
    ((List.range n).map f).getD j 0 = f j := by
  rw [List.getD_eq_getElem?_getD, List.getElem?_map, List.getElem?_range hj]
  rfl

theorem rowStep_ok (g : Nat) (rest : List Nat) (hg : g ≠ 0) :
    ∀ (cs : List Char) (R : List Nat),
    R = (List.range (cs.length + 1)).map (fun j => countSpec (cs.drop j) rest) →
    rowStep g cs R = (List.range (cs.length + 1)).map (fun j => countSpec (cs.drop j) (g :: rest)) := by
  intro cs
  induction cs with
  | nil =>
    intro R hR
    simp only [rowStep]
    have h1 : List.range 1 = [0] := rfl
    simp [h1, countSpec_nil]
  | cons c cs ih =>
    intro R hR
    have hRt : R.tail = (List.range (cs.length + 1)).map (fun j => countSpec (cs.drop j) rest) := by
      subst hR
      simp only [List.length_cons]
      rw [range_map_shift]
      simp only [List.tail_cons]
      apply List.map_congr_left
      intro j _
      simp [List.drop_succ_cons]
    have hN := ih R.tail hRt
    simp only [rowStep]
    rw [List.length_cons, range_map_shift]
    simp only [List.drop_zero, List.drop_succ_cons]
    rw [← hN]
    congr 1
    rw [countSpec_headRec g rest c cs hg]
    have hNh : (rowStep g cs R.tail).headD 0 = countSpec cs (g :: rest) := by
      rw [hN, range_map_shift]
      simp
    rw [hNh]
    congr 1
    unfold fitHead
    simp only [List.length_cons]
    by_cases hcond : g ≤ cs.length + 1 ∧ '.' ∉ (c :: cs).take g ∧ ((c :: cs).drop g).headD '.' ≠ '#'
    · rw [if_pos hcond, if_pos hcond]
      subst hR
      simp only [List.length_cons]
      rw [getD_range_map _ _ _ (by omega : min (g + 1) (cs.length + 1) < cs.length + 1 + 1)]
      have hd : (c :: cs).drop (min (g + 1) (cs.length + 1)) = (c :: cs).drop (g + 1) := by
        rw [show cs.length + 1 = (c :: cs).length from rfl, min_comm, drop_min_length]
      rw [hd]
    · rw [if_neg hcond, if_neg hcond]

theorem tabRow_ok (lava : List Char) : ∀ gs : List Nat, (∀ x ∈ gs, x ≠ 0) →
    tabRow lava gs = (List.range (lava.length + 1)).map (fun j => countSpec (lava.drop j) gs) := by
  intro gs
  induction gs with
  | nil => intro _; exact rowBase_ok lava
  | cons g rest ih =>
    intro hpos
    simp only [tabRow]
    exact rowStep_ok g rest (hpos g (by simp)) lava (tabRow lava rest)
      (ih (fun x hx => hpos x (by simp [hx])))

/-- The tabulated evaluator computes the arrangement count. -/
theorem tabCount_eq (lava : List Char) (gs : List Nat) (hpos : ∀ x ∈ gs, x ≠ 0) :
    tabCount lava gs = countSpec lava gs := by
  unfold tabCount
  rw [tabRow_ok lava gs hpos, range_map_shift]
  simp

/-! ### Records without Unknown cells -/

theorem countSpec_no_unknown (s : List Char) (h : ∀ c ∈ s, c = '.' ∨ c = '#') (gs : List Nat) :
    countSpec s gs = if runLengths (toBools s) = gs then 1 else 0 := by
  unfold countSpec
  rw [resolutions_no_unknown s h]
  simp only [List.countP_cons, List.countP_nil, Nat.zero_add]
  by_cases hg : runLengths (toBools s) = gs <;> simp [hg]

/-! ### Appending a trailing cell -/

theorem res_snoc_clear : ∀ s : List Char,
    resolutions (s ++ ['.']) = (resolutions s).map (fun bs => bs ++ [false]) := by
  intro s
  induction s with
  | nil => rfl
  | cons c cs ih =>
    simp only [List.cons_append, resolutions, List.append_eq]
    split_ifs <;> rw [ih] <;> simp [List.map_map, Function.comp_def]

theorem countSpec_snoc_clear (s : List Char) (gs : List Nat) :
    countSpec (s ++ ['.']) gs = countSpec s gs := by
  unfold countSpec
  rw [res_snoc_clear, List.countP_map]
  apply List.countP_congr
  intro bs _
  simp [Function.comp, runLengths, runsAux_snoc_false]

theorem countP_res_snoc_unknown : ∀ (s : List Char) (P : List Bool → Bool),
    (resolutions (s ++ ['?'])).countP P =
      (resolutions (s ++ ['.'])).countP P + (resolutions (s ++ ['#'])).countP P := by
  intro s
  induction s with
  | nil =>
    intro P
    have e1 : resolutions ['?'] = [[false], [true]] := rfl
    have e2 : resolutions ['.'] = [[false]] := rfl
    have e3 : resolutions ['#'] = [[true]] := rfl
    simp only [List.nil_append, e1, e2, e3, List.countP_cons, List.countP_nil]
    omega
  | cons c cs ih =>
    intro P
    simp only [List.cons_append, resolutions, List.append_eq]
    split_ifs
    · simp only [List.countP_map]
      exact ih _
    · simp only [List.countP_map]
      exact ih _
    · simp only [List.countP_append, List.countP_map]
      rw [ih (P ∘ fun bs => false :: bs), ih (P ∘ fun bs => true :: bs)]
      omega

theorem countSpec_snoc_unknown_ge (s : List Char) (gs : List Nat) :
    countSpec s gs ≤ countSpec (s ++ ['?']) gs := by
  have h1 := countP_res_snoc_unknown s (fun bs => decide (runLengths bs = gs))
  have h2 := countSpec_snoc_clear s gs
  unfold countSpec at *
  omega

/-! ### Parser lemmas -/

theorem splitOnChar_ne_nil (sep : Char) : ∀ s : List Char, splitOnChar sep s ≠ [] := by
  intro s
  induction s with
  | nil => simp [splitOnChar]
  | cons c rest ih =>
    simp only [splitOnChar]
    split_ifs
    · simp
    · rcases hsp : splitOnChar sep rest with - | ⟨a, t⟩ <;> simp [hsp]

theorem splitOnChar_prefix (sep : Char) : ∀ (xs ys : List Char), sep ∉ xs →
    ∀ (h : List Char) (t : List (List Char)), splitOnChar sep ys = h :: t →
    splitOnChar sep (xs ++ ys) = (xs ++ h) :: t := by
  intro xs
  induction xs with
  | nil =>
    intro ys _ h t hys
    simpa using hys
  | cons x xs ih =>
    intro ys hmem h t hys
    have hx : ¬ x = sep := fun e => hmem (by simp [e])
    simp only [List.cons_append, splitOnChar, if_neg hx, List.append_eq]
    rw [ih ys (fun hm => hmem (by simp [hm])) h t hys]

theorem parse_maintenance_record_panic (line : List Char)
    (h : (splitOnChar ' ' line).length ≠ 2) :
    parse_maintenance_record line = .panic := by
  rcases hs : splitOnChar ' ' line with - | ⟨a, - | ⟨b, - | ⟨x, t⟩⟩⟩
  · simp [parse_maintenance_record, hs]
  · simp [parse_maintenance_record, hs]
  · rw [hs] at h
    simp at h
  · simp [parse_maintenance_record, hs]

theorem parse_spec_zero (xs : List Char) (h : ' ' ∉ xs) :
    parse_maintenance_record (xs ++ (" 0".toList)) = .ok ⟨xs, [0]⟩ := by
  unfold parse_maintenance_record
  rw [show (" 0".toList) = [' ', '0'] from rfl,
    splitOnChar_prefix ' ' xs [' ', '0'] h [] [['0']] rfl, List.append_nil]
  rfl

theorem parse_all_abort (pre : List (List Char)) :
    ∀ (rs : List MaintenanceRecord) (l : List Char) (post : List (List Char)) (e : ParseErr),
    parse_all_maintenance_records pre = .ok rs →
    parse_maintenance_record l = .error e →
    parse_all_maintenance_records (pre ++ l :: post) = .error e := by
  induction pre with
  | nil =>
    intro rs l post e _ hl
    simp [parse_all_maintenance_records, hl]
  | cons p pre ih =>
    intro rs l post e hpre hl
    simp only [parse_all_maintenance_records] at hpre
    rcases hp : parse_maintenance_record p with - | e2 | r
    · rw [hp] at hpre
      exact PRes.noConfusion hpre
    · rw [hp] at hpre
      exact PRes.noConfusion hpre
    · rw [hp] at hpre
      simp only [List.cons_append, parse_all_maintenance_records, hp, List.append_eq]
      rcases hpre2 : parse_all_maintenance_records pre with - | e2 | rs2
      · rw [hpre2] at hpre
        exact PRes.noConfusion hpre
      · rw [hpre2] at hpre
        exact PRes.noConfusion hpre
      · rw [ih rs2 l post e hpre2 hl]

/-! ### The unfold transformation -/

theorem unfold_springs_eq_spec (s : List Char) (gs : List Nat) :
    unfold_springs s = (unfold_spec s gs 5).1 := by
  have h5 : List.range 5 = [0, 1, 2, 3, 4] := rfl
  simp [unfold_springs, unfold_spec, h5, List.intercalate, List.intersperse,
    List.append_assoc]

theorem unfold_groups_eq_spec (s : List Char) (gs : List Nat) :
    unfold_groups gs = (unfold_spec s gs 5).2 := rfl


/-! ### Helper equalities for evaluating the driver functions -/

theorem count_possible_failures_eq_pf (r : MaintenanceRecord) :
    count_possible_failures r = possible_failures r.springs r.damaged_springs :=
  pfm_run_eq r.springs r.damaged_springs

theorem count_possible_failures_unfold_eval (r : MaintenanceRecord)
    (hpos : ∀ x ∈ unfold_groups r.damaged_springs, x ≠ 0)
    (hfit : (unfold_groups r.damaged_springs).sum + (unfold_groups r.damaged_springs).length
      ≤ (unfold_springs r.springs).length + 1) :
    count_possible_failures_unfold r
      = some (tabCount (unfold_springs r.springs) (unfold_groups r.damaged_springs)) := by
  unfold count_possible_failures_unfold
  rw [pfm_run_eq]
  obtain ⟨n, hn⟩ := possible_failures_isSome _ _ hfit
  rw [hn, possible_failures_correct _ _ n hpos hn, ← tabCount_eq _ _ hpos]

/-! ### The claims -/

/-- C1 (counterexample): the claim promises the arrangement count (here 0) for
every record and positive group spec, but on the empty record with groups
`[1]` the loop-bound subtraction underflows and no value is returned. -/
theorem c1_counterexample : possible_failures [] [1] = none := by decide

/-- C1 (amended): for every record over Clear/Blocked/Unknown and every
positive group spec, whenever `possible_failures` returns a value it is
exactly the number of arrangements (`countSpec`), and it does return a value
whenever the groups and their separators fit in the record. -/
theorem c1_count_is_arrangements (lava : List Char) (springs : List Nat)
    (halpha : ∀ c ∈ lava, c = '.' ∨ c = '#' ∨ c = '?')
    (hpos : ∀ g ∈ springs, 1 ≤ g) :
    (∀ n, possible_failures lava springs = some n → n = countSpec lava springs)
    ∧ (springs.sum + springs.length ≤ lava.length + 1 →
        ∃ n, possible_failures lava springs = some n) := by
  refine ⟨?_, ?_⟩
  · intro n h
    exact possible_failures_correct lava springs n (fun x hx => by have := hpos x hx; omega) h
  · intro hfit
    exact possible_failures_isSome lava springs hfit

/-- C1 (witness): the canonical record `???.### 1,1,3` has exactly one
arrangement, as the engine reports. -/
theorem c1_witness : countSpec (("???.###".toList)) [1, 1, 3] = 1 :=
  ((c1_count_is_arrangements (("???.###".toList)) [1, 1, 3] (by decide) (by decide)).1
    1 (by decide)).symm

/-- C2 (code bug): on the infeasible pair `("?", [1, 1])` the claim demands
the value 0 without failure, but the loop bound
`lava.len() - remaining.sum() - remaining.len() - current + 1` underflows
(`1 - 1 - 1 - 1 + 1` in `usize`), i.e. the call panics under debug
assertions instead of returning 0. -/
theorem c2_infeasible_panics : possible_failures (("?".toList)) [1, 1] = none := by decide

/-- C3 (counterexample): with a malformed second line, the batch parser
returns only the error — the first and third lines parse individually, yet no
records and no totals are produced for them. -/
theorem c3_counterexample :
    parse_maintenance_record (("#. 1".toList)) = .ok ⟨['#', '.'], [1]⟩
    ∧ parse_maintenance_record ((". 1".toList)) = .ok ⟨['.'], [1]⟩
    ∧ parse_all_maintenance_records [("#. 1".toList), ("#. x".toList), (". 1".toList)]
        = .error .parseIntError
    ∧ main_totals [("#. 1".toList), ("#. x".toList), (". 1".toList)] = none :=
  ⟨by decide, by decide, by decide, by decide⟩

/-- C3 (amended): a parse failure on any line aborts the whole batch:
`parse_all_maintenance_records` returns the first failing line's error and
yields no records, regardless of how many lines before or after it parse. -/
theorem c3_first_error_aborts_batch (pre : List (List Char)) (rs : List MaintenanceRecord)
    (l : List Char) (post : List (List Char)) (e : ParseErr)
    (hpre : parse_all_maintenance_records pre = .ok rs)
    (hl : parse_maintenance_record l = .error e) :
    parse_all_maintenance_records (pre ++ l :: post) = .error e :=
  parse_all_abort pre rs l post e hpre hl

/-- C3 (witness): instantiating the abort theorem on a concrete batch. -/
theorem c3_witness :
    parse_all_maintenance_records ([("#. 1".toList)] ++ ("#. x".toList) :: [(". 1".toList)])
      = .error .parseIntError :=
  c3_first_error_aborts_batch [("#. 1".toList)] [⟨['#', '.'], [1]⟩]
    (("#. x".toList)) [(". 1".toList)] .parseIntError (by decide) (by decide)

/-- C4 (counterexample): of the three malformed-line categories, an illegal
cell character is accepted (the parse succeeds) and a missing spec part
panics (`assert!`), rather than both yielding a parse-time error value. -/
theorem c4_counterexample :
    parse_maintenance_record (("x%. 1,2".toList)) = .ok ⟨['x', '%', '.'], [1, 2]⟩
    ∧ parse_maintenance_record (("###".toList)) = .panic :=
  ⟨by decide, by decide⟩

/-- C4 (amended): only a non-numeric group length yields a parse-time error
value; a line that does not split into exactly two space-separated parts
triggers the assertion (a panic), and illegal record characters are accepted
verbatim. -/
theorem c4_parse_error_behavior (line : List Char) :
    ((splitOnChar ' ' line).length ≠ 2 → parse_maintenance_record line = .panic)
    ∧ parse_maintenance_record (("#.. 1,a".toList)) = .error .parseIntError
    ∧ parse_maintenance_record (("x%. 1".toList)) = .ok ⟨['x', '%', '.'], [1]⟩ :=
  ⟨parse_maintenance_record_panic line, by decide, by decide⟩

/-- C4 (witness): a line without a spec part panics. -/
theorem c4_witness : parse_maintenance_record (("#.#".toList)) = .panic :=
  (c4_parse_error_behavior (("#.#".toList))).1 (by decide)

/-- C5 (code bug): the unfolding the code performs is pure and produces
exactly the spec's `unfold(record, groups, 5)` — five copies of the record
joined by single Unknown separators and five concatenations of the groups —
but the factor is hardcoded to 5 inside `count_possible_failures_unfold`
(`for i in 0..5`, `repeat(5)`); no `factor` parameter exists. -/
theorem c5_unfold_hardcoded_five (s : List Char) (gs : List Nat) :
    unfold_springs s = (unfold_spec s gs 5).1 ∧ unfold_groups gs = (unfold_spec s gs 5).2 :=
  ⟨unfold_springs_eq_spec s gs, unfold_groups_eq_spec s gs⟩

/-- C6: appending one trailing Unknown cell to a feasible pair never
decreases the count: the appended record still completes and its count
dominates the original. -/
theorem c6_append_unknown_monotone (record : List Char) (groups : List Nat) (n : Nat)
    (hpos : ∀ g ∈ groups, 1 ≤ g)
    (hdef : possible_failures record groups = some n) :
    ∃ m, possible_failures (record ++ ['?']) groups = some m ∧ n ≤ m := by
  have hfit := possible_failures_some_fit record groups n hdef
  have hpos2 : ∀ x ∈ groups, x ≠ 0 := fun x hx => by have := hpos x hx; omega
  obtain ⟨m, hm⟩ := possible_failures_isSome (record ++ ['?']) groups
    (by simp only [List.length_append, List.length_cons, List.length_nil]; omega)
  refine ⟨m, hm, ?_⟩
  rw [possible_failures_correct record groups n hpos2 hdef,
    possible_failures_correct _ groups m hpos2 hm]
  exact countSpec_snoc_unknown_ge record groups

/-- C6 (witness): `count("?", [1]) = 1` and appending a `?` cannot lower it. -/
theorem c6_witness : ∃ m, possible_failures (("?".toList) ++ ['?']) [1] = some m ∧ 1 ≤ m :=
  c6_append_unknown_monotone (("?".toList)) [1] 1 (by decide) (by decide)

/-- C7 (counterexample): the claim ranges over every groups sequence, but for
the Unknown-free record `"."` with groups `[0]` the engine returns 2, not the
claimed 0 (the record's actual run lengths are `[]`, not `[0]`). -/
theorem c7_counterexample :
    possible_failures ['.'] [0] = some 2 ∧ runLengths (toBools ['.']) = [] :=
  ⟨by decide, by decide⟩

/-- C7 (amended): for a record without Unknown cells and positive groups,
whenever the engine returns a value it is 1 if the record's actual run
lengths equal the groups and 0 otherwise. -/
theorem c7_no_unknown_indicator (record : List Char) (groups : List Nat) (n : Nat)
    (hknown : ∀ c ∈ record, c = '.' ∨ c = '#')
    (hpos : ∀ g ∈ groups, 1 ≤ g)
    (h : possible_failures record groups = some n) :
    n = if runLengths (toBools record) = groups then 1 else 0 := by
  rw [possible_failures_correct record groups n (fun x hx => by have := hpos x hx; omega) h]
  exact countSpec_no_unknown record hknown groups

/-- C7 (witness): the fully known record `#.#` matches `[1, 1]` exactly once. -/
theorem c7_witness : (1 : Nat) = if runLengths (toBools ['#', '.', '#']) = [1, 1] then 1 else 0 :=
  c7_no_unknown_indicator ['#', '.', '#'] [1, 1] 1 (by decide) (by decide) (by decide)

set_option maxRecDepth 10000 in
/-- C8: the six canonical records count 1, 4, 1, 1, 4 and 10 (sum 21), and
their five-fold unfoldings count 1, 16384, 1, 16, 2500 and 506250
(sum 525152). -/
theorem c8_canonical_counts :
    count_possible_failures ⟨("???.###".toList), [1, 1, 3]⟩ = some 1
    ∧ count_possible_failures ⟨(".??..??...?##.".toList), [1, 1, 3]⟩ = some 4
    ∧ count_possible_failures ⟨("?#?#?#?#?#?#?#?".toList), [1, 3, 1, 6]⟩ = some 1
    ∧ count_possible_failures ⟨("????.#...#...".toList), [4, 1, 1]⟩ = some 1
    ∧ count_possible_failures ⟨("????.######..#####.".toList), [1, 6, 5]⟩ = some 4
    ∧ count_possible_failures ⟨("?###????????".toList), [3, 2, 1]⟩ = some 10
    ∧ 1 + 4 + 1 + 1 + 4 + 10 = 21
    ∧ count_possible_failures_unfold ⟨("???.###".toList), [1, 1, 3]⟩ = some 1
    ∧ count_possible_failures_unfold ⟨(".??..??...?##.".toList), [1, 1, 3]⟩ = some 16384
    ∧ count_possible_failures_unfold ⟨("?#?#?#?#?#?#?#?".toList), [1, 3, 1, 6]⟩ = some 1
    ∧ count_possible_failures_unfold ⟨("????.#...#...".toList), [4, 1, 1]⟩ = some 16
    ∧ count_possible_failures_unfold ⟨("????.######..#####.".toList), [1, 6, 5]⟩ = some 2500
    ∧ count_possible_failures_unfold ⟨("?###????????".toList), [3, 2, 1]⟩ = some 506250
    ∧ 1 + 16384 + 1 + 16 + 2500 + 506250 = 525152 := by
  refine ⟨?_, ?_, ?_, ?_, ?_, ?_, by norm_num, ?_, ?_, ?_, ?_, ?_, ?_, by norm_num⟩
  · rw [count_possible_failures_eq_pf]; decide
  · rw [count_possible_failures_eq_pf]; decide
  · rw [count_possible_failures_eq_pf]; decide
  · rw [count_possible_failures_eq_pf]; decide
  · rw [count_possible_failures_eq_pf]; decide
  · rw [count_possible_failures_eq_pf]; decide
  · rw [count_possible_failures_unfold_eval _ (by decide) (by decide)]; decide
  · rw [count_possible_failures_unfold_eval _ (by decide) (by decide)]; decide
  · rw [count_possible_failures_unfold_eval _ (by decide) (by decide)]; decide
  · rw [count_possible_failures_unfold_eval _ (by decide) (by decide)]; decide
  · rw [count_possible_failures_unfold_eval _ (by decide) (by decide)]; decide
  · rw [count_possible_failures_unfold_eval _ (by decide) (by decide)]; decide

/-- C9 (counterexample): a successful parse whose Group Spec contains 0 —
the parser does not enforce the positivity invariant. -/
theorem c9_counterexample :
    parse_maintenance_record (("#. 0".toList)) = .ok ⟨['#', '.'], [0]⟩ ∧ (0 : Nat) ∈ [0] :=
  ⟨by decide, by decide⟩

/-- C9 (amended): the parser performs no positivity check: any line whose
spec part is `0` parses successfully to the Group Spec `[0]`, which contains
0. -/
theorem c9_zero_group_parses (xs : List Char) (h : ' ' ∉ xs) :
    parse_maintenance_record (xs ++ (" 0".toList)) = .ok ⟨xs, [0]⟩ ∧ (0 : Nat) ∈ [0] :=
  ⟨parse_spec_zero xs h, by decide⟩

/-- C9 (witness): the record part `?` with spec part `0`. -/
theorem c9_witness : parse_maintenance_record (("? 0".toList)) = .ok ⟨['?'], [0]⟩ :=
  (c9_zero_group_parses ['?'] (by decide)).1

/-- C10: memoization is transparent — running `possible_failures` with its
(fresh, empty) memo cache returns exactly the value of the same recursion
with no cache at all, for every record and group spec. -/
theorem c10_memo_transparent (lava : List Char) (springs : List Nat) :
    (possible_failures_memo lava springs []).map Prod.fst = possible_failures lava springs :=
  pfm_run_eq lava springs
